import Mathlib

/-!
# bot-judge: the timed player stream and the match orchestrator

A shallow embedding of `src/src/playerstream.cpp`, `src/inc/playerstream.h` and
`src/src/judge.cpp`.

Conventions of the embedding.

* A `char` held in a buffer is the natural number of its byte; `int` values are `Int`
  (every `int` of the embedded code is a byte value, -1, an errno, or a distance between
  two pointers of a 1024-byte buffer, so no wrap-around is modelled).
* A pointer of the get area is its offset from `readbuf_`, a pointer of the put area is its
  offset from `writebuf_`.  The contents of a buffer are a function of the offset, so that a
  pointer that left the buffer is still a value of the model.
* System calls are answered by scripts held in `OS`: the k-th call of `select`, `read`
  and `write` gets the k-th answer.  Every call is appended to `OS.trace`.
* An exception leaving a function is the `Except.error` result.
-/

namespace BotJudge

/-! ## Definitions: playerstream -/

/-- The constant `playerbuf::BUF_SIZE`. -/
def BUF_SIZE : Int := 1024

/-- The value of `traits_type::eof()` and of the macro `EOF`. -/
def EOF : Int := -1

/-- The value of `ETIME` in the Linux `errno.h`. -/
def ETIME : Int := 62

/-- The conversion `traits_type::to_int_type(char)`: the char read as `unsigned char`. -/
def to_int_type (c : Nat) : Int := ((c % 256 : Nat) : Int)

/-- The conversion of an `int` to the `char` that is stored (its low eight bits). -/
def to_char (c : Int) : Nat := (c % 256).toNat

/-- The two fields of `struct timeval` that `set_timeout_ms` assigns. -/
structure timeval where
  tv_sec : Int
  tv_usec : Int
deriving DecidableEq, Repr

/-- The values the member `on_error_` (a `std::function`) takes: empty, a callback of the
client (named by a number), or the static member `throw_last_error`. -/
inductive error_fun_t where
  | empty
  | callback (id : Nat)
  | throw_last_error
deriving DecidableEq, Repr

/-- The exception `playerbuf_error`: it carries the error code it was built from. -/
structure playerbuf_error where
  err_code : Int
deriving DecidableEq, Repr

/-- The object state of `playerbuf`: its own members, then the six pointers of the
`std::streambuf` base (get area and put area). -/
structure playerbuf where
  input_fd_ : Int
  output_fd_ : Int
  readbuf_ : Int → Nat
  writebuf_ : Int → Nat
  timeout_ : Option timeval
  on_error_ : error_fun_t
  last_error_ : Int
  eback : Int
  gptr : Int
  egptr : Int
  pbase : Int
  pptr : Int
  epptr : Int

/-- What the embedded code does to the outside: system calls and callback invocations. -/
inductive Event where
  | select (nfds : Int) (fd : Int) (timeout : Option timeval) (rv : Int)
  | read (fd : Int) (count : Int) (rv : Int)
  | write (fd : Int) (bytes : List Nat) (rv : Int)
  | on_error (id : Nat) (sender : playerbuf) (errnum : Int)

/-- The answer of one `select` call: return value, the errno it sets when it returns -1,
and the time left that Linux writes back into the timeval. -/
structure select_result where
  rv : Int
  err : Int
  remaining : timeval

/-- The answer of one `read` call: failure with an errno, or the bytes that are available
(none when the peer closed its end). -/
inductive read_result where
  | fail (err : Int)
  | data (bytes : List Nat)

/-- The answer of one `write` call: return value and the errno it sets when it fails. -/
structure write_result where
  rv : Int
  err : Int

/-- The environment of one playerbuf. -/
structure OS where
  select_script : Nat → select_result
  read_script : Nat → read_result
  write_script : Nat → List Nat → write_result
  n_select : Nat
  n_read : Nat
  n_write : Nat
  errno : Int
  trace : List Event

/-- The state after a member function ran, with its return value or its exception. -/
structure Out where
  buf : playerbuf
  os : OS
  res : Except playerbuf_error Int

/-- The bytes `buf[off], ..., buf[off + count - 1]`. -/
def bytes_at (buf : Int → Nat) (off : Int) (count : Int) : List Nat :=
  (List.range count.toNat).map (fun i : Nat => buf (off + (i : Int)))

/-- The buffer after `bytes` were copied to offset `off`. -/
def store_bytes (buf : Int → Nat) (off : Int) (bytes : List Nat) : Int → Nat :=
  fun j => if off ≤ j ∧ j < off + (bytes.length : Int) then bytes.getD (j - off).toNat 0 else buf j

/-- The call `select(nfds, {fd}, 0, 0, timeout)`: return value, timeval afterwards, new
environment. -/
def sys_select (os : OS) (nfds fd : Int) (timeout : Option timeval) :
    Int × Option timeval × OS :=
  let r := os.select_script os.n_select
  (r.rv, timeout.map (fun _ => r.remaining),
    { os with
      n_select := os.n_select + 1
      errno := if r.rv = -1 then r.err else os.errno
      trace := os.trace ++ [Event.select nfds fd timeout r.rv] })

/-- The call `read(fd, buf, count)`: return value, bytes copied to `buf`, new environment.
At most `count` bytes are delivered. -/
def sys_read (os : OS) (fd : Int) (count : Int) : Int × List Nat × OS :=
  match os.read_script os.n_read with
  | read_result.fail e =>
    (-1, [], { os with
      n_read := os.n_read + 1
      errno := e
      trace := os.trace ++ [Event.read fd count (-1)] })
  | read_result.data bytes =>
    let got := bytes.take count.toNat
    ((got.length : Int), got, { os with
      n_read := os.n_read + 1
      trace := os.trace ++ [Event.read fd count (got.length : Int)] })

/-- The call `write(fd, bytes, bytes.length)`: return value and new environment. -/
def sys_write (os : OS) (fd : Int) (bytes : List Nat) : Int × OS :=
  let r := os.write_script os.n_write bytes
  (r.rv, { os with
    n_write := os.n_write + 1
    errno := if r.rv = -1 then r.err else os.errno
    trace := os.trace ++ [Event.write fd bytes r.rv] })

/-- The constructor `playerbuf::playerbuf(input_fd, output_fd)`.  The get area starts as
three null pointers, which is the empty area; the put area is set with `setp` only when
`output_fd >= 0`. -/
def new_playerbuf (input_fd output_fd : Int) : playerbuf :=
  { input_fd_ := input_fd
    output_fd_ := output_fd
    readbuf_ := fun _ => 0
    writebuf_ := fun _ => 0
    timeout_ := none
    on_error_ := error_fun_t.empty
    last_error_ := 0
    eback := 0
    gptr := 0
    egptr := 0
    pbase := 0
    pptr := 0
    epptr := if output_fd ≥ 0 then BUF_SIZE else 0 }

/-- The member `playerbuf::set_timeout_ms`; `/` and `%` of C++ truncate towards zero. -/
def set_timeout_ms (b : playerbuf) (timeout_ms : Int) : playerbuf :=
  { b with timeout_ := some ⟨Int.tdiv timeout_ms 1000, 1000 * Int.tmod timeout_ms 1000⟩ }

/-- The static member `playerbuf::throw_last_error`: the exception it throws. -/
def throw_last_error (_sender : playerbuf) (errnum : Int) : playerbuf_error :=
  ⟨errnum⟩

/-- Modelled from the spec: `playerbuf::on_error_call` of the absent
`playerstream_inlines.h`; the header says the given function becomes the handler and the
previous one is detached. -/
def on_error_call (b : playerbuf) (id : Nat) : playerbuf :=
  { b with on_error_ := error_fun_t.callback id }

/-- Modelled from the spec: `playerbuf::on_error_throw` of the absent
`playerstream_inlines.h`; the header says the handler becomes the one that throws
`playerbuf_error`, which is the private static `throw_last_error`. -/
def on_error_throw (b : playerbuf) : playerbuf :=
  { b with on_error_ := error_fun_t.throw_last_error }

/-- Modelled from the spec: `playerbuf::on_error_no_op` of the absent
`playerstream_inlines.h`; the header says the previous handler is detached. -/
def on_error_no_op (b : playerbuf) : playerbuf :=
  { b with on_error_ := error_fun_t.empty }

/-- Modelled from the spec: `playerbuf::get_last_error` of the absent
`playerstream_inlines.h`; the header says it returns the last error, 0 for none. -/
def get_last_error (b : playerbuf) : Int := b.last_error_

/-- The member `playerbuf::call_on_error`: nothing when `on_error_` is empty, otherwise the
call `on_error_(*this, last_error_)`, which is logged for a callback and is an exception
for `throw_last_error`. -/
def call_on_error (b : playerbuf) (os : OS) : OS × Option playerbuf_error :=
  match b.on_error_ with
  | error_fun_t.empty => (os, none)
  | error_fun_t.callback id =>
    ({ os with trace := os.trace ++ [Event.on_error id b b.last_error_] }, none)
  | error_fun_t.throw_last_error => (os, some (throw_last_error b b.last_error_))

/-- The statement sequence `call_on_error(); return r;` of the error branches. -/
def signal_and_return (b : playerbuf) (os : OS) (r : Int) : Out :=
  match call_on_error b os with
  | (os1, none) => ⟨b, os1, Except.ok r⟩
  | (os1, some e) => ⟨b, os1, Except.error e⟩

/-- The member `streambuf::setg`. -/
def setg (b : playerbuf) (gbeg gcur gend : Int) : playerbuf :=
  { b with eback := gbeg, gptr := gcur, egptr := gend }

/-- The member `streambuf::setp`. -/
def setp (b : playerbuf) (pbeg pend : Int) : playerbuf :=
  { b with pbase := pbeg, pptr := pbeg, epptr := pend }

/-- The member `playerbuf::underflow`. -/
def underflow (b : playerbuf) (os : OS) : Out :=
  if b.gptr = b.egptr then
    match sys_select os (b.input_fd_ + 1) b.input_fd_ b.timeout_ with
    | (rv, tv, os1) =>
      let b1 := { b with timeout_ := tv }
      if rv = -1 then
        signal_and_return { b1 with last_error_ := os1.errno } os1 EOF
      else if rv = 0 then
        signal_and_return { b1 with last_error_ := ETIME } os1 EOF
      else
        match sys_read os1 b1.input_fd_ BUF_SIZE with
        | (rv2, got, os2) =>
          let b2 := { b1 with readbuf_ := store_bytes b1.readbuf_ 0 got }
          if rv2 = -1 then
            signal_and_return { b2 with last_error_ := os2.errno } os2 EOF
          else if rv2 = 0 then
            ⟨b2, os2, Except.ok EOF⟩
          else
            let b3 := setg b2 0 0 rv2
            ⟨b3, os2, Except.ok (to_int_type (b3.readbuf_ b3.gptr))⟩
  else
    ⟨b, os, Except.ok (to_int_type (b.readbuf_ b.gptr))⟩

/-- The default `streambuf::uflow`, the read of one character: `underflow`, then the get
pointer is advanced unless the result is end-of-stream. -/
def uflow (b : playerbuf) (os : OS) : Out :=
  let r := underflow b os
  match r.res with
  | Except.error _ => r
  | Except.ok c => if c = EOF then r else { r with buf := { r.buf with gptr := r.buf.gptr + 1 } }

/-- The loop of `playerbuf::sync`, entered with the current `chars_left`. -/
def sync_loop (b : playerbuf) (os : OS) (chars_left : Int) : Out :=
  if chars_left > 0 then
    match sys_write os b.output_fd_ (bytes_at b.writebuf_ (b.pptr - chars_left) chars_left) with
    | (rv, os1) =>
      if rv ≤ 0 then
        signal_and_return
          (setp { b with last_error_ := os1.errno } (b.pbase - chars_left) BUF_SIZE) os1 (-1)
      else
        sync_loop b os1 (chars_left - rv)
  else
    ⟨setp b 0 BUF_SIZE, os, Except.ok 0⟩
termination_by chars_left.toNat
decreasing_by omega

/-- The member `playerbuf::sync`. -/
def sync (b : playerbuf) (os : OS) : Out :=
  sync_loop b os (b.pptr - b.pbase)

/-- The member `playerbuf::overflow`. -/
def overflow (b : playerbuf) (os : OS) (c : Int) : Out :=
  let r := sync b os
  match r.res with
  | Except.error _ => r
  | Except.ok v =>
    if v ≠ 0 then { r with res := Except.ok EOF }
    else if c = EOF then { r with res := Except.ok EOF }
    else
      { buf := { r.buf with
          writebuf_ := store_bytes r.buf.writebuf_ r.buf.pptr [to_char c]
          pptr := r.buf.pptr + 1 }
        os := r.os
        res := Except.ok (to_int_type (to_char c)) }

/-- The member `streambuf::sputc` of the standard library: the char goes to the put area
when there is room, to `overflow` otherwise. -/
def sputc (b : playerbuf) (os : OS) (c : Nat) : Out :=
  if b.pptr < b.epptr then
    { buf := { b with writebuf_ := store_bytes b.writebuf_ b.pptr [c], pptr := b.pptr + 1 }
      os := os
      res := Except.ok (to_int_type c) }
  else
    overflow b os (to_int_type c)

/-- The client of the get side: `n` successive reads of one character (`uflow`), stopped by
an exception; the state after every read is kept. -/
def read_chars : Nat → playerbuf → OS → List Out
  | 0, _, _ => []
  | n + 1, b, os =>
    let r := uflow b os
    r :: (match r.res with
      | Except.error _ => []
      | Except.ok _ => read_chars n r.buf r.os)

/-- The client of the put side: the bytes are put one at a time with `sputc`, stopped by
the first failure (an exception or the result end-of-stream); the result is 0 when every
byte was taken. -/
def put_chars : List Nat → playerbuf → OS → Out
  | [], b, os => ⟨b, os, Except.ok 0⟩
  | c :: cs, b, os =>
    let r := sputc b os c
    match r.res with
    | Except.error _ => r
    | Except.ok v => if v = EOF then r else put_chars cs r.buf r.os

/-- The client of the put side continued: after the bytes were put, the buffer is flushed
with `sync`. -/
def put_then_sync (s : List Nat) (b : playerbuf) (os : OS) : Out :=
  let r := put_chars s b os
  match r.res with
  | Except.error _ => r
  | Except.ok v => if v = EOF then r else sync r.buf r.os

/-- The bytes the output endpoint accepted in one event: the first `rv` of the offered ones
for a `write` that returned `rv`, none for any other event. -/
def Event.accepted : Event → List Nat
  | Event.write _ bytes rv => bytes.take rv.toNat
  | _ => []

/-- The bytes the output endpoint accepted over a whole trace, in order. -/
def delivered : List Event → List Nat
  | [] => []
  | e :: t => e.accepted ++ delivered t

/-- Whether an event is an invocation of the error callback. -/
def Event.is_on_error : Event → Bool
  | Event.on_error _ _ _ => true
  | _ => false

/-- Whether an event is a `read` call. -/
def Event.is_read : Event → Bool
  | Event.read _ _ _ => true
  | _ => false

/-- Whether an event is a `write` call. -/
def Event.is_write : Event → Bool
  | Event.write _ _ _ => true
  | _ => false

/-- The put-area pointers lie inside the `BUF_SIZE` bytes of `writebuf_` and are ordered. -/
def put_area_ok (b : playerbuf) : Prop :=
  0 ≤ b.pbase ∧ b.pbase ≤ b.pptr ∧ b.pptr ≤ b.epptr ∧ b.epptr ≤ BUF_SIZE

instance (b : playerbuf) : Decidable (put_area_ok b) := by
  unfold put_area_ok; infer_instance

/-- An environment whose scripts are given and in which no call was made yet. -/
def fresh_OS (sel : Nat → select_result) (rd : Nat → read_result)
    (wr : Nat → List Nat → write_result) : OS :=
  { select_script := sel
    read_script := rd
    write_script := wr
    n_select := 0
    n_read := 0
    n_write := 0
    errno := 0
    trace := [] }

/-- The read script of a peer whose bytes arrive as the given chunks and who then closed its
end: the k-th `read` finds the k-th chunk, every later one finds nothing. -/
def chunk_script (chunks : List (List Nat)) : Nat → read_result :=
  fun k => read_result.data (chunks.getD k [])

/-! ## Definitions: judge -/

/-- The constant `NUM_PROGRAMS`. -/
def NUM_PROGRAMS : Nat := 2

/-- The constant `LOG_FOLDER`. -/
def LOG_FOLDER : List Char := ['l', 'o', 'g', 's', '/']

/-- The text `ostream << int` produces: the decimal digits, after a minus sign when the
number is negative. -/
def decimal (n : Int) : List Char :=
  if n < 0 then '-' :: Nat.toDigits 10 n.natAbs else Nat.toDigits 10 n.natAbs

/-- The backward scan of `string::find_last_of(char)` over the positions below `n`. -/
def rfind_below (s : List Char) (c : Char) : Nat → Option Nat
  | 0 => none
  | n + 1 => if s[n]? = some c then some n else rfind_below s c n

/-- The member `string::find_last_of(char)`; `none` is `string::npos`. -/
def find_last_of (s : List Char) (c : Char) : Option Nat :=
  rfind_below s c s.length

/-- The function `get_battle_folder_path`. -/
def get_battle_folder_path (battle_id : Int) : List Char :=
  LOG_FOLDER ++ decimal battle_id ++ ['/']

/-- The function `get_filename`. -/
def get_filename (path : List Char) : List Char :=
  let startPos : Nat :=
    match find_last_of path '/' with
    | none => 0
    | some pos => pos + 1
  path.drop startPos

/-- The function `get_battle_stderr_path`. -/
def get_battle_stderr_path (battle_id program_id : Int) (process_name : List Char) :
    List Char :=
  get_battle_folder_path battle_id ++ decimal program_id ++ ['.']
    ++ get_filename process_name ++ ['.', 'e', 'r', 'r']

/-- The loop of `operator+=` from index `i` on, with the number of iterations left. -/
def add_assign_from {T : Type} [Add T] (v2 : List T) : Nat → Nat → List T → List T
  | 0, _, v1 => v1
  | k + 1, i, v1 =>
    match v1[i]?, v2[i]? with
    | some a, some b => add_assign_from v2 k (i + 1) (v1.set i (a + b))
    | _, _ => v1

/-- The template `operator+=` on vectors: `v1[i] += v2[i]` for every `i` below
`min(v1.size(), v2.size())`. -/
def vector_add_assign {T : Type} [Add T] (v1 v2 : List T) : List T :=
  add_assign_from v2 (min v1.length v2.length) 0 v1

/-- The constant `reps` of `main`. -/
def reps : Nat := 10

/-- The accumulation loop of `main`: `match_scores` starts as `NUM_PROGRAMS` zeros and the
score vector of match `i` is added for `i = 0, ..., reps - 1`. -/
def main_match_scores {T : Type} [Add T] [Zero T] (play_match_scores : Nat → List T) :
    List T :=
  (List.range reps).foldl (fun match_scores i => vector_add_assign match_scores (play_match_scores i))
    (List.replicate NUM_PROGRAMS 0)

/-- Modelled from the spec: the constant `PIPE_READ_END` of the absent `common.h`; `pipe`
stores the read end first. -/
def PIPE_READ_END : Nat := 0

/-- Modelled from the spec: the constant `PIPE_WRITE_END` of the absent `common.h`; `pipe`
stores the write end second. -/
def PIPE_WRITE_END : Nat := 1

/-- The signal number of `SIGKILL`. -/
def SIGKILL : Int := 9

/-- What the judge process asks of the system while it plays a match. -/
inductive Syscall where
  | system (cmd : List Char)
  | pipe (rd wr : Int)
  | open_file (path : List Char) (fd : Int)
  | fork (pid : Int)
  | close (fd : Int) (rv : Int)
  | kill (pid : Int) (sig : Int)
  | wait
  | output (fd : Int) (text : List Char)
deriving DecidableEq, Repr

/-- The judge process as the kernel sees it: the descriptors it has open, the pids its
`fork` calls will return, and the calls made so far.  In this kernel `system`, `pipe`,
`open`, `kill` and `wait` succeed, `fork` returns what the script says, and `close` fails
on a descriptor that is not open. -/
structure Process where
  fds : List Int
  fork_script : Nat → Int
  n_fork : Nat
  log : List Syscall

/-- How the judge process stops before `play_match` returns: `syserr` after a failed
call, a failed `assert`, or being the forked child (which goes on to `execlp`). -/
inductive Exit where
  | syserr (call : String)
  | assert_failed
  | child (i : Nat)
deriving DecidableEq, Repr

/-- The search for the lowest descriptor that is not open, from candidate `c`. -/
def lowest_free_from (fds : List Int) : Nat → Nat → Nat
  | 0, c => c
  | n + 1, c => if (c : Int) ∈ fds then lowest_free_from fds n (c + 1) else c

/-- The lowest descriptor that is not open, the one the kernel hands out next. -/
def lowest_free (fds : List Int) : Int :=
  (lowest_free_from fds fds.length 0 : Nat)

/-- The call `pipe(fds)`: the two lowest free descriptors, read end first. -/
def sys_pipe (p : Process) : (Int × Int) × Process :=
  let rd := lowest_free p.fds
  let wr := lowest_free (p.fds ++ [rd])
  ((rd, wr), { p with fds := p.fds ++ [rd, wr], log := p.log ++ [Syscall.pipe rd wr] })

/-- The call `open(path, O_WRONLY | O_CREAT | O_APPEND, 0640)`. -/
def sys_open (p : Process) (path : List Char) : Int × Process :=
  let fd := lowest_free p.fds
  (fd, { p with fds := p.fds ++ [fd], log := p.log ++ [Syscall.open_file path fd] })

/-- The call `close(fd)`: 0 and the descriptor is released, or -1 when it is not open. -/
def sys_close (p : Process) (fd : Int) : Int × Process :=
  if fd ∈ p.fds then
    (0, { p with fds := p.fds.filter (fun x => x ≠ fd), log := p.log ++ [Syscall.close fd 0] })
  else
    (-1, { p with log := p.log ++ [Syscall.close fd (-1)] })

/-- The call `fork()` as the parent or the child sees it return. -/
def sys_fork (p : Process) : Int × Process :=
  let pid := p.fork_script p.n_fork
  (pid, { p with n_fork := p.n_fork + 1, log := p.log ++ [Syscall.fork pid] })

/-- The call `kill(pid, sig)`. -/
def sys_kill (p : Process) (pid sig : Int) : Int × Process :=
  (0, { p with log := p.log ++ [Syscall.kill pid sig] })

/-- The call `wait(nullptr)`. -/
def sys_wait (p : Process) : Process :=
  { p with log := p.log ++ [Syscall.wait] }

/-- The function `command`, for a command that succeeds. -/
def command (p : Process) (cmd : List Char) : Process :=
  { p with log := p.log ++ [Syscall.system cmd] }

/-- The function `make_folder`. -/
def make_folder (p : Process) (path : List Char) : Process :=
  command p (['m', 'k', 'd', 'i', 'r', ' ', '-', 'p', ' '] ++ path)

/-- The function `make_battle_folder`. -/
def make_battle_folder (p : Process) (battle_id : Int) : Process :=
  make_folder p (get_battle_folder_path battle_id)

/-- The arguments `Engine::PlayerData` is constructed from. -/
structure PlayerData where
  read_fd : Int
  write_fd : Int
  err_fd : Int
  program_name : List Char
  player_id : Nat
deriving DecidableEq, Repr

/-- The members of `Engine::GameResult` that `play_match` uses. -/
structure GameResult where
  player_scores : List ℚ
  pretty_result : List Char

/-- The local arrays of `play_match`, filled in index order. -/
structure match_locals where
  read_pipes : List (Int × Int)
  write_pipes : List (Int × Int)
  err_files : List Int
  children_pids : List Int

/-- The end of a pipe array entry selected by `PIPE_READ_END` or `PIPE_WRITE_END`. -/
def pipe_end (fds : Int × Int) (which : Nat) : Int :=
  if which = 0 then fds.1 else fds.2

/-- The first loop of `play_match` (pipes, error file, fork) from index `i` on, with the
number of iterations left.  The branch `case 0` runs in the child and ends this model. -/
def spawn_loop (programs : List (List Char)) (battle_id : Int) :
    Nat → Nat → match_locals → Process → Except Exit (match_locals × Process)
  | 0, _, l, p => Except.ok (l, p)
  | k + 1, i, l, p =>
    match sys_pipe p with
    | (rp, p1) =>
    match sys_pipe p1 with
    | (wp, p2) =>
    let err_file_path := get_battle_stderr_path battle_id i (programs.getD i [])
    let p3 := { p2 with log := p2.log ++ [Syscall.output 2
      (['C', 'r', 'e', 'a', 't', 'i', 'n', 'g', ' ', 'e', 'r', 'r', 'o', 'r', ' ', 'f', 'i', 'l',
        'e', ' '] ++ err_file_path)] }
    match sys_open p3 err_file_path with
    | (ef, p4) =>
    match sys_fork p4 with
    | (child_pid, p5) =>
    if child_pid = -1 then Except.error (Exit.syserr "Error in fork")
    else if child_pid = 0 then Except.error (Exit.child i)
    else
      match sys_close p5 (pipe_end wp PIPE_READ_END) with
      | (rv1, p6) =>
      if rv1 = -1 then Except.error (Exit.syserr "close(write_pipes[i][PIPE_READ_END])")
      else
        match sys_close p6 (pipe_end rp PIPE_WRITE_END) with
        | (rv2, p7) =>
        if rv2 = -1 then Except.error (Exit.syserr "close(read_pipes[i][PIPE_WRITE_END])")
        else
          spawn_loop programs battle_id k (i + 1)
            { read_pipes := l.read_pipes ++ [rp]
              write_pipes := l.write_pipes ++ [wp]
              err_files := l.err_files ++ [ef]
              children_pids := l.children_pids ++ [child_pid] } p7

/-- The second loop of `play_match`: one `PlayerData` per program. -/
def make_players (programs : List (List Char)) (l : match_locals) : List PlayerData :=
  (List.range NUM_PROGRAMS).map (fun i =>
    { read_fd := pipe_end (l.read_pipes.getD i (0, 0)) PIPE_READ_END
      write_fd := pipe_end (l.write_pipes.getD i (0, 0)) PIPE_WRITE_END
      err_fd := l.err_files.getD i 0
      program_name := programs.getD i []
      player_id := i })

/-- The loop `for (pid_t child_pid: children_pids) SYSCALL_WITH_CHECK(kill(child_pid, SIGKILL))`. -/
def kill_loop : List Int → Process → Except Exit Process
  | [], p => Except.ok p
  | pid :: pids, p =>
    match sys_kill p pid SIGKILL with
    | (rv, p1) =>
      if rv = -1 then Except.error (Exit.syserr "kill(child_pid, SIGKILL)") else kill_loop pids p1

/-- The loop `for (size_t i = 0; i < children_pids.size(); i++) wait(nullptr)`. -/
def wait_loop : Nat → Process → Process
  | 0, p => p
  | n + 1, p => wait_loop n (sys_wait p)

/-- The destruction of the local `players` when `play_match` returns.  `PlayerData` has the
implicit destructor: its playerstream goes through `~playerbuf`, which deletes the two
buffers and makes no system call.  The dynamic type of `error_stream` is chosen in the
engine source, which is not at hand, so whether its destructor closes the error file is the
parameter `err_stream_closes`. -/
def destroy_players (err_stream_closes : Bool) : List PlayerData → Process → Process
  | [], p => p
  | d :: ds, p =>
    destroy_players err_stream_closes ds
      (if err_stream_closes then (sys_close p d.err_fd).2 else p)

/-- The function `play_match` as the parent process runs it.  The rules engine is the
parameter `play_game`; it gets the player handles, which expose streams and no
descriptor. -/
def play_match (play_game : List PlayerData → GameResult) (err_stream_closes : Bool)
    (programs : List (List Char)) (battle_id : Int) (p : Process) :
    Except Exit (List ℚ × Process) :=
  if programs.length ≠ NUM_PROGRAMS then Except.error Exit.assert_failed
  else
    match spawn_loop programs battle_id NUM_PROGRAMS 0 ⟨[], [], [], []⟩
        (make_battle_folder p battle_id) with
    | Except.error e => Except.error e
    | Except.ok (l, p1) =>
      let players := make_players programs l
      let result := play_game players
      let p2 := { p1 with log := p1.log ++ [Syscall.output 1 result.pretty_result] }
      match kill_loop l.children_pids p2 with
      | Except.error e => Except.error e
      | Except.ok p3 =>
        Except.ok (result.player_scores,
          destroy_players err_stream_closes players (wait_loop l.children_pids.length p3))

/-! ## Definitions: concrete environments and buffers used as inputs -/

/-- A `select` script that times out at the first call and reports the descriptor ready at
every later one. -/
def late_select : Nat → select_result :=
  fun k => if k = 0 then ⟨0, 0, ⟨0, 0⟩⟩ else ⟨1, 0, ⟨0, 0⟩⟩

/-- A `select` script that always reports the descriptor ready. -/
def ready_select : Nat → select_result := fun _ => ⟨1, 0, ⟨0, 0⟩⟩

/-- A `write` script of a peer that is gone: every call fails with `EPIPE` (32). -/
def broken_pipe : Nat → List Nat → write_result := fun _ _ => ⟨-1, 32⟩

/-- A `write` script that takes one byte at the first call and fails with `EPIPE` (32) at
every later one. -/
def one_then_broken : Nat → List Nat → write_result :=
  fun k _ => if k = 0 then ⟨1, 0⟩ else ⟨-1, 32⟩

/-- A `write` script that takes one byte at every call. -/
def byte_by_byte : Nat → List Nat → write_result := fun _ _ => ⟨1, 0⟩

/-- The environment of a playerbuf whose peer is gone: `write` fails with `EPIPE`. -/
def gone_peer_OS : OS := fresh_OS ready_select (chunk_script []) broken_pipe

/-- The environment in which `write` takes one byte and then fails with `EPIPE`. -/
def failing_peer_OS : OS := fresh_OS ready_select (chunk_script []) one_then_broken

/-- The environment in which the first `select` times out and the byte 'a' is there at the
second one. -/
def late_peer_OS : OS := fresh_OS late_select (chunk_script [[97]]) broken_pipe

/-- A playerbuf on descriptors 3 and 4 after `overflow('a')` on the fresh object: one byte
is buffered and nothing was written. -/
def one_byte_buf : playerbuf :=
  (overflow (new_playerbuf 3 4) gone_peer_OS 97).buf

/-- A playerbuf on descriptors 3 and 4 after the three bytes "abc" were put with `sputc`. -/
def three_byte_buf : playerbuf :=
  (put_chars [97, 98, 99] (new_playerbuf 3 4)
    failing_peer_OS).buf

/-- The judge process at start: standard input, output and error are open, and the two
`fork` calls will return the pids 100 and 101. -/
def judge_process : Process :=
  { fds := [0, 1, 2], fork_script := fun k => 100 + (k : Int), n_fork := 0, log := [] }

/-- The `kill` calls of a log, in order. -/
def kills (log : List Syscall) : List (Int × Int) :=
  log.filterMap (fun c => match c with
    | Syscall.kill pid sig => some (pid, sig)
    | _ => none)

/-- The number of `wait` calls of a log. -/
def waits (log : List Syscall) : Nat :=
  (log.filter (fun c => c = Syscall.wait)).length

/-! ## Definitions: predicates of the statements -/

/-- No event of the trace is an invocation of the error callback. -/
def no_on_error (t : List Event) : Prop := ∀ e ∈ t, e.is_on_error = false

/-- A run of reads gave the expected values, and after every one of them the last error
is 0 and the error callback was never invoked. -/
def reads_ok (rs : List Out) (expected : List Int) : Prop :=
  rs.map (fun r => r.res) = expected.map (fun v => Except.ok v) ∧
  ∀ r ∈ rs, get_last_error r.buf = 0 ∧ no_on_error r.os.trace

/-- The state of the put side between two calls while no `write` has failed: the put area
starts at `writebuf_`, the put pointer is inside the buffer, the `write` script is `w`, and
the bytes delivered so far followed by the buffered ones are `done`. -/
def put_inv (b : playerbuf) (os : OS) (w : Nat → List Nat → write_result) (done : List Nat) :
    Prop :=
  b.pbase = 0 ∧ 0 ≤ b.pptr ∧ b.pptr ≤ BUF_SIZE ∧ b.epptr = BUF_SIZE ∧ os.write_script = w ∧
  delivered os.trace ++ bytes_at b.writebuf_ 0 b.pptr = done

/-- A `write` script that accepts some positive number of the offered bytes at every call. -/
def accepts_some (w : Nat → List Nat → write_result) : Prop :=
  ∀ (k : Nat) (bytes : List Nat), bytes ≠ [] →
    0 < (w k bytes).rv ∧ (w k bytes).rv ≤ (bytes.length : Int)

/-! ## Theorems: the loop of sync -/

/-- The loop of `sync` entered with nothing left resets the put area and returns 0. -/
theorem sync_loop_done (b : playerbuf) (os : OS) (n : Int) (h : n ≤ 0) :
    sync_loop b os n = ⟨setp b 0 BUF_SIZE, os, Except.ok 0⟩ := by
  rw [sync_loop]
  simp [not_lt.mpr h]

/-- The loop of `sync` when `write` does not return a positive number: the error branch. -/
theorem sync_loop_fail (b : playerbuf) (os : OS) (n : Int) (h : 0 < n)
    (hw : (os.write_script os.n_write (bytes_at b.writebuf_ (b.pptr - n) n)).rv ≤ 0) :
    sync_loop b os n =
      signal_and_return
        (setp { b with last_error_ :=
          (sys_write os b.output_fd_ (bytes_at b.writebuf_ (b.pptr - n) n)).2.errno }
          (b.pbase - n) BUF_SIZE)
        (sys_write os b.output_fd_ (bytes_at b.writebuf_ (b.pptr - n) n)).2 (-1) := by
  rw [sync_loop]
  simp only [gt_iff_lt, h, if_true]
  have : (sys_write os b.output_fd_ (bytes_at b.writebuf_ (b.pptr - n) n)).1 ≤ 0 := hw
  simp [this]

/-- The loop of `sync` when `write` returns a positive number: one more round. -/
theorem sync_loop_step (b : playerbuf) (os : OS) (n : Int) (h : 0 < n)
    (hw : 0 < (os.write_script os.n_write (bytes_at b.writebuf_ (b.pptr - n) n)).rv) :
    sync_loop b os n =
      sync_loop b (sys_write os b.output_fd_ (bytes_at b.writebuf_ (b.pptr - n) n)).2
        (n - (os.write_script os.n_write (bytes_at b.writebuf_ (b.pptr - n) n)).rv) := by
  rw [sync_loop]
  simp only [gt_iff_lt, h, if_true]
  have : ¬ (sys_write os b.output_fd_ (bytes_at b.writebuf_ (b.pptr - n) n)).1 ≤ 0 :=
    not_le.mpr hw
  simp [this]
  rfl

/-! ## Theorems: error paths of the put side -/

/-- The buffer after `overflow('a')` on the fresh object, written out. -/
theorem one_byte_buf_eq :
    one_byte_buf =
      { new_playerbuf 3 4 with writebuf_ := store_bytes (fun _ => 0) 0 [97], pptr := 1 } := by
  unfold one_byte_buf overflow sync
  rw [sync_loop_done _ _ _ (by decide)]
  rfl

/-- The run of `sync` on the one-byte buffer when `write` fails, for any error handler. -/
theorem sync_one_byte_gone_peer (h : error_fun_t) :
    sync { one_byte_buf with on_error_ := h } gone_peer_OS =
      signal_and_return
        (setp { one_byte_buf with on_error_ := h, last_error_ := 32 } (-1) BUF_SIZE)
        (sys_write gone_peer_OS 4 [97]).2 (-1) := by
  rw [one_byte_buf_eq]
  exact sync_loop_fail _ gone_peer_OS 1 (by decide) (show (-1 : Int) ≤ 0 by decide)

/-- C10: the put area does not stay inside the write buffer.  On a fresh playerbuf with a
valid output descriptor, `overflow('a')` leaves the pointers in order inside the buffer;
the following `sync`, whose `write` fails, returns -1 and leaves `pbase() == pptr() ==
writebuf_ - 1`, one byte before the buffer, so that the next `sputc` stores its byte at
`writebuf_[-1]`. -/
theorem failed_sync_moves_put_area_out :
    put_area_ok (new_playerbuf 3 4) ∧
    put_area_ok one_byte_buf ∧
    (sync one_byte_buf gone_peer_OS).res = Except.ok (-1) ∧
    (sync one_byte_buf gone_peer_OS).buf.pbase = -1 ∧
    (sync one_byte_buf gone_peer_OS).buf.pptr = -1 ∧
    ¬ put_area_ok (sync one_byte_buf gone_peer_OS).buf ∧
    (sputc (sync one_byte_buf gone_peer_OS).buf (sync one_byte_buf gone_peer_OS).os
      98).buf.writebuf_ (-1) = 98 := by
  have h := sync_one_byte_gone_peer error_fun_t.empty
  have e : ({ one_byte_buf with on_error_ := error_fun_t.empty } : playerbuf) = one_byte_buf := by
    rw [one_byte_buf_eq]; rfl
  rw [e] at h
  rw [h, one_byte_buf_eq]
  refine ⟨by decide, by decide, rfl, rfl, rfl, by decide, by decide⟩

/-- C5: a write error raises under the raise-on-error mode.  On the playerbuf that holds one
buffered byte and had `on_error_throw()` called, a `write` that fails with `EPIPE` makes
`sync` leave by a `playerbuf_error` carrying that errno instead of returning -1, and
`overflow` leaves by the same exception instead of returning end-of-stream; the errno is
recorded as the last error. -/
theorem write_error_raises_in_throw_mode :
    (sync (on_error_throw one_byte_buf) gone_peer_OS).res = Except.error ⟨32⟩ ∧
    get_last_error (sync (on_error_throw one_byte_buf) gone_peer_OS).buf = 32 ∧
    (overflow (on_error_throw one_byte_buf) gone_peer_OS 98).res = Except.error ⟨32⟩ := by
  have h := sync_one_byte_gone_peer error_fun_t.throw_last_error
  have e : ({ one_byte_buf with on_error_ := error_fun_t.throw_last_error } : playerbuf)
      = on_error_throw one_byte_buf := rfl
  rw [e] at h
  unfold overflow
  rw [h]
  exact ⟨rfl, rfl, rfl⟩

/-- The run of `sync` on the three-byte buffer when `write` takes one byte and then fails. -/
theorem sync_three_byte_failing_peer :
    sync three_byte_buf failing_peer_OS =
      signal_and_return
        (setp { three_byte_buf with last_error_ := 32 } (-2) BUF_SIZE)
        (sys_write (sys_write failing_peer_OS 4 [97, 98, 99]).2 4 [98, 99]).2 (-1) :=
  (sync_loop_step three_byte_buf failing_peer_OS 3 (by decide)
      (show (0 : Int) < 1 by decide)).trans
    (sync_loop_fail three_byte_buf (sys_write failing_peer_OS 4 [97, 98, 99]).2 2 (by decide)
      (show (-1 : Int) ≤ 0 by decide))

/-- The second `sync` after the failed one on the three-byte buffer. -/
theorem resync_three_byte_failing_peer :
    sync (sync three_byte_buf failing_peer_OS).buf (sync three_byte_buf failing_peer_OS).os =
      ⟨setp (sync three_byte_buf failing_peer_OS).buf 0 BUF_SIZE,
        (sync three_byte_buf failing_peer_OS).os, Except.ok 0⟩ := by
  rw [sync_three_byte_failing_peer]
  exact sync_loop_done _ _ _ (show ((-2 : Int) - (-2)) ≤ 0 by decide)

/-- C6: a failed flush is not retried.  The buffer holds the three bytes "abc"; the first
`sync` gets one byte accepted and then a failing `write`, returns -1 with two bytes unsent.
The following `sync`, with nothing put in between and with the endpoint still failing,
makes no `write` call (the trace is unchanged) and returns 0, while only "a" was ever
delivered. -/
theorem failed_sync_drops_pending_bytes :
    three_byte_buf.pptr - three_byte_buf.pbase = 3 ∧
    (sync three_byte_buf failing_peer_OS).res = Except.ok (-1) ∧
    delivered (sync three_byte_buf failing_peer_OS).os.trace = [97] ∧
    (sync (sync three_byte_buf failing_peer_OS).buf (sync three_byte_buf failing_peer_OS).os).res
      = Except.ok 0 ∧
    (sync (sync three_byte_buf failing_peer_OS).buf
        (sync three_byte_buf failing_peer_OS).os).os.trace
      = (sync three_byte_buf failing_peer_OS).os.trace ∧
    ((sync three_byte_buf failing_peer_OS).os.write_script
      (sync three_byte_buf failing_peer_OS).os.n_write [98, 99]).rv = -1 := by
  rw [resync_three_byte_failing_peer, sync_three_byte_failing_peer]
  exact ⟨by decide, rfl, by decide, rfl, rfl, by decide⟩

/-! ## Theorems: timeouts -/

/-- C2: a timeout is signalled as an error.  For every playerbuf whose get area is exhausted
and every environment whose next `select` returns 0, `underflow` records `ETIME` as the
last error, makes no `read` call (the only system call is the `select`), signals the error
once through the handler in force (nothing for none, one callback invocation with this
buffer and `ETIME`, or a `playerbuf_error` carrying `ETIME`), and returns end-of-stream
when nothing was raised. -/
theorem underflow_timeout_signalled (b : playerbuf) (os : OS)
    (hg : b.gptr = b.egptr) (hs : (os.select_script os.n_select).rv = 0) :
    get_last_error (underflow b os).buf = ETIME ∧
    (underflow b os).os.n_read = os.n_read ∧
    (underflow b os).os.trace =
      os.trace ++ Event.select (b.input_fd_ + 1) b.input_fd_ b.timeout_ 0 ::
        (match b.on_error_ with
          | error_fun_t.callback id => [Event.on_error id (underflow b os).buf ETIME]
          | _ => []) ∧
    (underflow b os).res =
      (match b.on_error_ with
        | error_fun_t.throw_last_error => Except.error ⟨ETIME⟩
        | _ => Except.ok EOF) := by
  have hu : underflow b os =
      signal_and_return { b with
          timeout_ := (sys_select os (b.input_fd_ + 1) b.input_fd_ b.timeout_).2.1
          last_error_ := ETIME }
        (sys_select os (b.input_fd_ + 1) b.input_fd_ b.timeout_).2.2 EOF := by
    unfold underflow
    have h1 : (sys_select os (b.input_fd_ + 1) b.input_fd_ b.timeout_).1 = 0 := hs
    simp only [hg, if_true]
    rw [if_neg (by rw [h1]; decide), if_pos h1]
  rw [hu]
  unfold signal_and_return call_on_error sys_select get_last_error throw_last_error
  cases hm : b.on_error_ <;> simp [hm, hs]

/-- Witness of C2: a fresh playerbuf with callback 7 installed, whose first `select` times
out. -/
theorem underflow_timeout_signalled_witness :
    (on_error_call (new_playerbuf 3 4) 7).gptr = (on_error_call (new_playerbuf 3 4) 7).egptr ∧
    (late_peer_OS.select_script late_peer_OS.n_select).rv = 0 ∧
    get_last_error (underflow (on_error_call (new_playerbuf 3 4) 7) late_peer_OS).buf = ETIME ∧
    (underflow (on_error_call (new_playerbuf 3 4) 7) late_peer_OS).os.n_read = 0 ∧
    (underflow (on_error_call (new_playerbuf 3 4) 7) late_peer_OS).os.trace =
      [Event.select 4 3 none 0,
        Event.on_error 7 (underflow (on_error_call (new_playerbuf 3 4) 7) late_peer_OS).buf
          ETIME] ∧
    (underflow (on_error_call (new_playerbuf 3 4) 7) late_peer_OS).res = Except.ok EOF :=
  ⟨by decide, by decide,
    underflow_timeout_signalled (on_error_call (new_playerbuf 3 4) 7) late_peer_OS
      (by decide) (by decide)⟩

/-- C3: an elapsed timeout is not sticky.  The timeout is set to 100 ms; the first
`underflow` times out (`select` returns 0, the timeval is left at zero), returns
end-of-stream and records `ETIME`.  The next `underflow`, with no `set_timeout_ms` in
between, finds the descriptor ready and returns the byte 'a' instead of end-of-stream. -/
theorem timeout_not_sticky :
    (underflow (set_timeout_ms (new_playerbuf 3 4) 100) late_peer_OS).res = Except.ok EOF ∧
    get_last_error (underflow (set_timeout_ms (new_playerbuf 3 4) 100) late_peer_OS).buf
      = ETIME ∧
    (underflow (set_timeout_ms (new_playerbuf 3 4) 100) late_peer_OS).buf.timeout_
      = some ⟨0, 0⟩ ∧
    (underflow (underflow (set_timeout_ms (new_playerbuf 3 4) 100) late_peer_OS).buf
      (underflow (set_timeout_ms (new_playerbuf 3 4) 100) late_peer_OS).os).res
      = Except.ok 97 :=
  ⟨rfl, by decide, by decide, rfl⟩

/-! ## Theorems: the match orchestrator -/

/-- C7: teardown does not release every descriptor.  With programs "a" and "b", match 0,
descriptors 0, 1, 2 open at the start, every system call succeeding and any rules engine,
`play_match` returns after one `SIGKILL` per child and two `wait` calls, and the parent
still has descriptors open that it did not have before: for each player the read end of
its read pipe (3, 4) and the write end of its write pipe (6, 9), and also its error file
(7, 10) unless the destructor of the error stream closes it. -/
theorem play_match_leaves_descriptors_open (play_game : List PlayerData → GameResult)
    (err_stream_closes : Bool) :
    (play_match play_game err_stream_closes [['a'], ['b']] 0 judge_process).map
        (fun r => r.2.fds)
      = Except.ok (if err_stream_closes then [0, 1, 2, 3, 6, 4, 9]
          else [0, 1, 2, 3, 6, 7, 4, 9, 10]) ∧
    (play_match play_game err_stream_closes [['a'], ['b']] 0 judge_process).map
        (fun r => kills r.2.log)
      = Except.ok [(100, SIGKILL), (101, SIGKILL)] ∧
    (play_match play_game err_stream_closes [['a'], ['b']] 0 judge_process).map
        (fun r => waits r.2.log)
      = Except.ok 2 := by
  cases err_stream_closes
  · exact ⟨rfl, rfl, rfl⟩
  · exact ⟨rfl, rfl, rfl⟩

/-! ## Theorems: the get side -/

/-- A byte value read as `unsigned char` is itself. -/
theorem to_int_type_of_lt (x : Nat) (h : x < 256) : to_int_type x = (x : Int) := by
  unfold to_int_type
  rw [Nat.mod_eq_of_lt h]

/-- One more read after a read that returned a value. -/
theorem read_chars_succ_ok (n : Nat) (b : playerbuf) (os : OS) (v : Int)
    (h : (uflow b os).res = Except.ok v) :
    read_chars (n + 1) b os = uflow b os :: read_chars n (uflow b os).buf (uflow b os).os := by
  rw [read_chars]
  simp only [h]

/-- A good first read followed by a good run is a good run. -/
theorem reads_ok_cons (r : Out) (rs : List Out) (v : Int) (E : List Int)
    (h1 : r.res = Except.ok v) (h2 : get_last_error r.buf = 0) (h3 : no_on_error r.os.trace)
    (h4 : reads_ok rs E) : reads_ok (r :: rs) (v :: E) := by
  obtain ⟨h5, h6⟩ := h4
  constructor
  · simp only [List.map_cons, h1, h5]
  · intro r1 hr
    rcases List.mem_cons.mp hr with e | e
    · subst e; exact ⟨h2, h3⟩
    · exact h6 r1 e

/-- A read while the get area holds a byte: that byte, and the get pointer moves on. -/
theorem uflow_buffered (b : playerbuf) (os : OS) (x : Nat) (hne : b.gptr ≠ b.egptr)
    (hx : b.readbuf_ b.gptr = x) (hlt : x < 256) :
    uflow b os = ⟨{ b with gptr := b.gptr + 1 }, os, Except.ok (x : Int)⟩ := by
  have hu : underflow b os = ⟨b, os, Except.ok (x : Int)⟩ := by
    unfold underflow
    rw [if_neg hne, hx, to_int_type_of_lt x hlt]
  unfold uflow
  rw [hu]
  have : ¬ ((x : Int) = EOF) := by unfold EOF; omega
  simp [this]

/-- Reading out the bytes that the get area holds, then going on with a run that is
good from every state whose get area is exhausted. -/
theorem drain_buffer (n : Nat) (os : OS) (E : List Int) (hos : no_on_error os.trace)
    (hk : ∀ b1 : playerbuf, b1.gptr = b1.egptr → b1.last_error_ = 0 →
      reads_ok (read_chars n b1 os) E) :
    ∀ (cs : List Nat) (b : playerbuf), b.egptr = b.gptr + (cs.length : Int) →
      (∀ i (h : i < cs.length), b.readbuf_ (b.gptr + (i : Int)) = cs[i]) →
      (∀ x ∈ cs, x < 256) → b.last_error_ = 0 →
      reads_ok (read_chars (cs.length + n) b os) (cs.map (fun x : Nat => (x : Int)) ++ E) := by
  intro cs
  induction cs with
  | nil =>
    intro b he _ _ hl
    simp only [List.length_nil, Nat.zero_add, List.map_nil, List.nil_append]
    exact hk b (by simpa using he.symm) hl
  | cons x xs ih =>
    intro b he hb hx hl
    have hne : b.gptr ≠ b.egptr := by
      rw [he]; simp only [List.length_cons]; push_cast; omega
    have h0 : b.readbuf_ b.gptr = x := by
      have := hb 0 (by simp)
      simpa using this
    have hu := uflow_buffered b os x hne h0 (hx x (List.mem_cons_self _ _))
    have hlen : (x :: xs).length + n = (xs.length + n) + 1 := by
      simp only [List.length_cons]; omega
    rw [hlen, read_chars_succ_ok _ _ _ (x : Int) (by rw [hu])]
    simp only [List.map_cons, List.cons_append]
    refine reads_ok_cons _ _ _ _ (by rw [hu]) (by rw [hu]; exact hl) (by rw [hu]; exact hos) ?_
    rw [hu]
    apply ih
    · show b.egptr = b.gptr + 1 + (xs.length : Int)
      rw [he]; simp only [List.length_cons]; push_cast; omega
    · intro i hi
      show b.readbuf_ (b.gptr + 1 + (i : Int)) = xs[i]
      have := hb (i + 1) (by simp only [List.length_cons]; omega)
      simp only [List.getElem_cons_succ] at this
      rw [← this]
      congr 1
      push_cast; omega
    · intro y hy
      exact hx y (List.mem_cons_of_mem _ hy)
    · exact hl

/-- The run of `underflow` on an exhausted get area when `select` reports the descriptor
ready and `read` finds the chunk `c`. -/
theorem underflow_fetch (b : playerbuf) (os : OS) (c : List Nat)
    (hg : b.gptr = b.egptr) (hs : 0 < (os.select_script os.n_select).rv)
    (hr : os.read_script os.n_read = read_result.data c) (hc : (c.length : Int) ≤ BUF_SIZE) :
    underflow b os =
      if c = [] then
        ⟨{ b with
            timeout_ := b.timeout_.map (fun _ => (os.select_script os.n_select).remaining)
            readbuf_ := store_bytes b.readbuf_ 0 c },
          { os with
            n_select := os.n_select + 1
            n_read := os.n_read + 1
            trace := os.trace ++
              [Event.select (b.input_fd_ + 1) b.input_fd_ b.timeout_
                (os.select_script os.n_select).rv,
               Event.read b.input_fd_ BUF_SIZE (c.length : Int)] },
          Except.ok EOF⟩
      else
        ⟨{ b with
            timeout_ := b.timeout_.map (fun _ => (os.select_script os.n_select).remaining)
            readbuf_ := store_bytes b.readbuf_ 0 c
            eback := 0
            gptr := 0
            egptr := (c.length : Int) },
          { os with
            n_select := os.n_select + 1
            n_read := os.n_read + 1
            trace := os.trace ++
              [Event.select (b.input_fd_ + 1) b.input_fd_ b.timeout_
                (os.select_script os.n_select).rv,
               Event.read b.input_fd_ BUF_SIZE (c.length : Int)] },
          Except.ok (to_int_type (store_bytes b.readbuf_ 0 c 0))⟩ := by
  have htake : c.take BUF_SIZE.toNat = c := by
    apply List.take_of_length_le
    unfold BUF_SIZE at hc ⊢
    omega
  have h1 : (os.select_script os.n_select).rv ≠ -1 := by omega
  have h0 : (os.select_script os.n_select).rv ≠ 0 := by omega
  unfold underflow
  simp only [hg, if_true, sys_select, h1, h0, if_false, sys_read, hr, htake, setg]
  by_cases hcn : c = []
  · subst hcn
    simp
  · have hl : ¬ ((c.length : Int) = -1) := by omega
    have hl0 : ¬ ((c.length : Int) = 0) := by
      intro h; apply hcn; apply List.length_eq_zero.mp; omega
    simp [hcn, hl, hl0]

/-- A `select` and a `read` event add no callback invocation to a trace. -/
theorem no_on_error_fetch (t : List Event) (h : no_on_error t) (a b : Int) (tv : Option timeval)
    (r c d : Int) : no_on_error (t ++ [Event.select a b tv r, Event.read b c d]) := by
  intro e he
  rcases List.mem_append.mp he with h1 | h1
  · exact h e h1
  · simp only [List.mem_cons, List.mem_singleton, List.not_mem_nil, or_false] at h1
    rcases h1 with h1 | h1 <;> subst h1 <;> rfl

/-- The bytes copied to the start of a buffer are found there. -/
theorem store_bytes_at (buf : Int → Nat) (cs : List Nat) (i : Nat) (h : i < cs.length) :
    store_bytes buf 0 cs (i : Int) = cs[i] := by
  unfold store_bytes
  have : (0 : Int) ≤ (i : Int) ∧ (i : Int) < 0 + (cs.length : Int) := by omega
  rw [if_pos this]
  simp [List.getD_eq_getElem?_getD, List.getElem?_eq_getElem h]

/-- The chunks of the peer are read back in order and followed by end-of-stream, from
every state whose get area is exhausted. -/
theorem read_chunks : ∀ (chunks : List (List Nat)) (b : playerbuf) (os : OS),
    b.gptr = b.egptr → b.last_error_ = 0 → no_on_error os.trace →
    (∀ k, 0 < (os.select_script k).rv) →
    (∀ k, k ≤ chunks.length →
      os.read_script (os.n_read + k) = read_result.data (chunks.getD k [])) →
    (∀ c ∈ chunks, c ≠ [] ∧ (c.length : Int) ≤ BUF_SIZE ∧ ∀ x ∈ c, x < 256) →
    reads_ok (read_chars (chunks.flatten.length + 1) b os)
      (chunks.flatten.map (fun x : Nat => (x : Int)) ++ [EOF]) := by
  intro chunks
  induction chunks with
  | nil =>
    intro b os hg hl hos hs hr _
    have hr0 : os.read_script os.n_read = read_result.data [] := by
      simpa using hr 0 le_rfl
    have hu := underflow_fetch b os [] hg (hs _) hr0 (by decide)
    rw [if_pos rfl] at hu
    have hf : uflow b os = underflow b os := by
      unfold uflow
      rw [hu]
      simp
    have : read_chars (([] : List (List Nat)).flatten.length + 1) b os = [uflow b os] := by
      simp only [List.flatten_nil, List.length_nil, Nat.zero_add]
      rw [read_chars_succ_ok 0 b os EOF (by rw [hf, hu])]
      rfl
    rw [this, hf, hu]
    simp only [List.flatten_nil, List.map_nil, List.nil_append]
    exact reads_ok_cons _ _ _ _ rfl hl (no_on_error_fetch _ hos _ _ _ _ _ _)
      ⟨rfl, fun _ h => absurd h (List.not_mem_nil _)⟩
  | cons c rest ih =>
    intro b os hg hl hos hs hr hc
    obtain ⟨hne, hlen, hbytes⟩ := hc c (List.mem_cons_self _ _)
    cases c with
    | nil => exact absurd rfl hne
    | cons x xs =>
      have hr0 : os.read_script os.n_read = read_result.data (x :: xs) := by
        simpa using hr 0 (Nat.zero_le _)
      have hu := underflow_fetch b os (x :: xs) hg (hs _) hr0 hlen
      rw [if_neg (List.cons_ne_nil _ _)] at hu
      have hx0 : store_bytes b.readbuf_ 0 (x :: xs) 0 = x :=
        store_bytes_at b.readbuf_ (x :: xs) 0 (by simp)
      rw [hx0, to_int_type_of_lt x (hbytes x (List.mem_cons_self _ _))] at hu
      have hxe : ¬ ((x : Int) = EOF) := by unfold EOF; omega
      have hf : uflow b os = { underflow b os with
          buf := { (underflow b os).buf with gptr := (underflow b os).buf.gptr + 1 } } := by
        unfold uflow
        rw [hu]
        simp [hxe]
      rw [hu] at hf
      dsimp only at hf
      have hcount : ((x :: xs) :: rest).flatten.length + 1
          = (xs.length + (rest.flatten.length + 1)) + 1 := by
        simp only [List.flatten_cons, List.length_append, List.length_cons]; omega
      rw [hcount, read_chars_succ_ok _ b os (x : Int) (by rw [hf])]
      simp only [List.flatten_cons, List.cons_append, List.map_cons, List.map_append,
        List.append_assoc]
      refine reads_ok_cons _ _ _ _ (by rw [hf]) (by rw [hf]; exact hl)
        (by rw [hf]; exact no_on_error_fetch _ hos _ _ _ _ _ _) ?_
      rw [hf]
      apply drain_buffer
      · exact no_on_error_fetch _ hos _ _ _ _ _ _
      · intro b1 hg1 hl1
        refine ih b1 _ hg1 hl1 (no_on_error_fetch _ hos _ _ _ _ _ _) hs ?_ ?_
        · intro k hk
          have := hr (k + 1) (by simp only [List.length_cons]; omega)
          simp only [List.getD_cons_succ] at this
          rw [← this]
          show os.read_script (os.n_read + 1 + k) = _
          congr 1
          omega
        · intro c1 hc1
          exact hc c1 (List.mem_cons_of_mem _ hc1)
      · show ((x :: xs).length : Int) = 0 + 1 + (xs.length : Int)
        simp only [List.length_cons]; push_cast; omega
      · intro i hi
        show store_bytes b.readbuf_ 0 (x :: xs) (0 + 1 + (i : Int)) = xs[i]
        have := store_bytes_at b.readbuf_ (x :: xs) (i + 1) (by simp only [List.length_cons]; omega)
        simp only [List.getElem_cons_succ] at this
        rw [← this]
        congr 1
        push_cast; omega
      · intro y hy
        exact hbytes y (List.mem_cons_of_mem _ hy)
      · exact hl

/-- C1: read-back with ordinary close.  The bytes of the peer arrive as the chunks `chunks`
(each non-empty, at most `BUF_SIZE` bytes, every byte below 256) in successive `read` calls,
the next `read` finds nothing, and `select` always reports the descriptor ready.  Then
`chunks.flatten.length + 1` reads of one character on a fresh playerbuf, whatever error
handler was installed, return the bytes of `chunks.flatten` in order, each as its value
0..255, and then end-of-stream; no read leaves by an exception, and after every read
`get_last_error()` is 0 and the trace holds no invocation of the error callback. -/
theorem read_back_ordinary_close (input_fd output_fd : Int) (h : error_fun_t) (os : OS)
    (chunks : List (List Nat))
    (hchunks : ∀ c ∈ chunks, c ≠ [] ∧ (c.length : Int) ≤ BUF_SIZE ∧ ∀ x ∈ c, x < 256)
    (hsel : ∀ k, 0 < (os.select_script k).rv)
    (hread : ∀ k, k ≤ chunks.length →
      os.read_script (os.n_read + k) = read_result.data (chunks.getD k []))
    (htrace : ∀ e ∈ os.trace, e.is_on_error = false) :
    (read_chars (chunks.flatten.length + 1)
        { new_playerbuf input_fd output_fd with on_error_ := h } os).map (fun r => r.res)
      = (chunks.flatten.map (fun x : Nat => (x : Int)) ++ [EOF]).map (fun v => Except.ok v) ∧
    ∀ r ∈ read_chars (chunks.flatten.length + 1)
        { new_playerbuf input_fd output_fd with on_error_ := h } os,
      get_last_error r.buf = 0 ∧ ∀ e ∈ r.os.trace, e.is_on_error = false :=
  read_chunks chunks { new_playerbuf input_fd output_fd with on_error_ := h } os rfl rfl htrace
    hsel hread hchunks

/-- Witness of C1: the bytes 104, 105 arrive in one chunk, the byte 255 in a second one, and
the playerbuf is in the raise-on-error mode. -/
theorem read_back_ordinary_close_witness :
    (∀ c ∈ [[104, 105], [255]], c ≠ [] ∧ (c.length : Int) ≤ BUF_SIZE ∧ ∀ x ∈ c, x < 256) ∧
    (read_chars 4 (on_error_throw (new_playerbuf 3 4))
        (fresh_OS ready_select (chunk_script [[104, 105], [255]]) broken_pipe)).map
        (fun r => r.res)
      = [Except.ok 104, Except.ok 105, Except.ok 255, Except.ok EOF] :=
  ⟨by decide,
    (read_back_ordinary_close 3 4 error_fun_t.throw_last_error
      (fresh_OS ready_select (chunk_script [[104, 105], [255]]) broken_pipe)
      [[104, 105], [255]] (by decide) (fun _ => show (0 : Int) < 1 by decide)
      (fun k _ => by simp [fresh_OS, chunk_script])
      (fun _ he => absurd he (List.not_mem_nil _))).1⟩

/-! ## Theorems: the put side -/

/-- The bytes delivered over two traces in a row. -/
theorem delivered_append (t1 t2 : List Event) :
    delivered (t1 ++ t2) = delivered t1 ++ delivered t2 := by
  induction t1 with
  | nil => rfl
  | cons e t ih =>
    show e.accepted ++ delivered (t ++ t2) = (e.accepted ++ delivered t) ++ delivered t2
    rw [ih, List.append_assoc]

/-- The number of bytes of a buffer slice. -/
theorem bytes_at_length (buf : Int → Nat) (off n : Int) :
    (bytes_at buf off n).length = n.toNat := by
  simp [bytes_at]

/-- A slice of no bytes is empty. -/
theorem bytes_at_nonpos (buf : Int → Nat) (off n : Int) (h : n ≤ 0) :
    bytes_at buf off n = [] := by
  have : n.toNat = 0 := by omega
  simp [bytes_at, this]

/-- A buffer slice is its first `k` bytes followed by the rest. -/
theorem bytes_at_split (buf : Int → Nat) (off n k : Int) (hk : 0 ≤ k) (hkn : k ≤ n) :
    bytes_at buf off n = bytes_at buf off k ++ bytes_at buf (off + k) (n - k) := by
  have e : n.toNat = k.toNat + (n - k).toNat := by omega
  unfold bytes_at
  rw [e, List.range_add, List.map_append, List.map_map]
  congr 1
  apply List.map_congr_left
  intro i _
  simp only [Function.comp]
  congr 1
  push_cast
  omega

/-- Two buffers that agree on a range have the same slice there. -/
theorem bytes_at_congr (buf1 buf2 : Int → Nat) (off n : Int)
    (h : ∀ i : Int, off ≤ i → i < off + n → buf1 i = buf2 i) :
    bytes_at buf1 off n = bytes_at buf2 off n := by
  unfold bytes_at
  apply List.map_congr_left
  intro i hi
  have := List.mem_range.mp hi
  apply h <;> omega

/-- The slice of one byte. -/
theorem bytes_at_one (buf : Int → Nat) (off : Int) : bytes_at buf off 1 = [buf off] := by
  show [buf (off + ((0 : Nat) : Int))] = [buf off]
  simp

/-- The byte stored at an offset is found there. -/
theorem store_bytes_one_same (buf : Int → Nat) (off : Int) (x : Nat) :
    store_bytes buf off [x] off = x := by
  simp [store_bytes]

/-- Storing one byte leaves the other offsets alone. -/
theorem store_bytes_one_other (buf : Int → Nat) (off : Int) (x : Nat) (j : Int) (h : j ≠ off) :
    store_bytes buf off [x] j = buf j := by
  unfold store_bytes
  have : ¬ (off ≤ j ∧ j < off + (([x] : List Nat).length : Int)) := by
    simp only [List.length_singleton]; push_cast; omega
  rw [if_neg this]

/-- Storing a byte right after the first `p` bytes appends it to them. -/
theorem bytes_at_store_end (buf : Int → Nat) (p : Int) (x : Nat) (hp : 0 ≤ p) :
    bytes_at (store_bytes buf p [x]) 0 (p + 1) = bytes_at buf 0 p ++ [x] := by
  rw [bytes_at_split _ 0 (p + 1) p hp (by omega)]
  have e1 : p + 1 - p = 1 := by omega
  rw [e1, bytes_at_one, zero_add, store_bytes_one_same]
  congr 1
  apply bytes_at_congr
  intro i _ hi
  exact store_bytes_one_other buf p x i (by omega)

/-- The loop of `sync`, when every `write` accepts some bytes: it ends with result 0, the
put area is reset, and the bytes from `pptr() - n` to `pptr()` were delivered in order. -/
theorem sync_loop_delivers (b : playerbuf) (w : Nat → List Nat → write_result)
    (hw : accepts_some w) : ∀ (m : Nat) (os : OS) (n : Int), n.toNat ≤ m →
    os.write_script = w →
    (sync_loop b os n).buf = setp b 0 BUF_SIZE ∧
    (sync_loop b os n).res = Except.ok 0 ∧
    (sync_loop b os n).os.write_script = w ∧
    delivered (sync_loop b os n).os.trace =
      delivered os.trace ++ bytes_at b.writebuf_ (b.pptr - n) n := by
  intro m
  induction m with
  | zero =>
    intro os n hn hos
    have h0 : n ≤ 0 := by omega
    rw [sync_loop_done b os n h0, bytes_at_nonpos _ _ _ h0]
    exact ⟨rfl, rfl, hos, by simp⟩
  | succ m ih =>
    intro os n hn hos
    by_cases h0 : n ≤ 0
    · rw [sync_loop_done b os n h0, bytes_at_nonpos _ _ _ h0]
      exact ⟨rfl, rfl, hos, by simp⟩
    · have hpos : 0 < n := by omega
      have hne : bytes_at b.writebuf_ (b.pptr - n) n ≠ [] := by
        intro h
        have := bytes_at_length b.writebuf_ (b.pptr - n) n
        rw [h] at this
        simp only [List.length_nil] at this
        omega
      obtain ⟨h1, h2⟩ := hw os.n_write _ hne
      rw [bytes_at_length] at h2
      rw [← hos] at h1 h2
      rw [sync_loop_step b os n hpos h1]
      obtain ⟨i1, i2, i3, i4⟩ := ih
        (sys_write os b.output_fd_ (bytes_at b.writebuf_ (b.pptr - n) n)).2
        (n - (os.write_script os.n_write (bytes_at b.writebuf_ (b.pptr - n) n)).rv)
        (by omega) hos
      refine ⟨i1, i2, i3, ?_⟩
      rw [i4]
      generalize hrv : (os.write_script os.n_write (bytes_at b.writebuf_ (b.pptr - n) n)).rv = rv
        at h1 h2 ⊢
      have hd : delivered (sys_write os b.output_fd_ (bytes_at b.writebuf_ (b.pptr - n) n)).2.trace
          = delivered os.trace ++ (bytes_at b.writebuf_ (b.pptr - n) n).take rv.toNat := by
        simp only [sys_write, delivered_append, delivered, Event.accepted, hrv, List.append_nil]
      rw [hd, List.append_assoc]
      congr 1
      have hsplit := bytes_at_split b.writebuf_ (b.pptr - n) n rv (by omega) (by omega)
      have e2 : b.pptr - n + rv = b.pptr - (n - rv) := by omega
      rw [e2] at hsplit
      conv_rhs => rw [hsplit]
      congr 1
      rw [hsplit, List.take_left' (bytes_at_length _ _ _)]

/-- A byte value survives the conversion to `int` and back to `char`. -/
theorem to_char_to_int_type (x : Nat) (h : x < 256) : to_char (to_int_type x) = x := by
  unfold to_char
  rw [to_int_type_of_lt x h]
  omega

/-- The member `sync` from a state of the invariant: result 0, put area reset, every byte
put so far delivered. -/
theorem sync_delivers (b : playerbuf) (os : OS) (w : Nat → List Nat → write_result)
    (done : List Nat) (hw : accepts_some w) (hi : put_inv b os w done) :
    (sync b os).buf = setp b 0 BUF_SIZE ∧ (sync b os).res = Except.ok 0 ∧
    (sync b os).os.write_script = w ∧ delivered (sync b os).os.trace = done := by
  obtain ⟨h1, h2, h3, h4, h5, h6⟩ := hi
  obtain ⟨i1, i2, i3, i4⟩ :=
    sync_loop_delivers b w hw (b.pptr - b.pbase).toNat os (b.pptr - b.pbase) le_rfl h5
  refine ⟨i1, i2, i3, ?_⟩
  unfold sync
  rw [i4, h1, ← h6]
  simp

/-- The member `sputc` keeps the invariant and adds its byte. -/
theorem sputc_inv (b : playerbuf) (os : OS) (w : Nat → List Nat → write_result)
    (done : List Nat) (x : Nat) (hw : accepts_some w) (hx : x < 256)
    (hi : put_inv b os w done) :
    (sputc b os x).res = Except.ok (x : Int) ∧
    put_inv (sputc b os x).buf (sputc b os x).os w (done ++ [x]) := by
  have hi0 := hi
  obtain ⟨h1, h2, h3, h4, h5, h6⟩ := hi
  unfold sputc
  by_cases hroom : b.pptr < b.epptr
  · rw [if_pos hroom]
    refine ⟨by simp only [to_int_type_of_lt x hx], h1, ?_, ?_, h4, h5, ?_⟩
    · show 0 ≤ b.pptr + 1
      omega
    · show b.pptr + 1 ≤ BUF_SIZE
      omega
    · show delivered os.trace ++ bytes_at (store_bytes b.writebuf_ b.pptr [x]) 0 (b.pptr + 1)
        = done ++ [x]
      rw [bytes_at_store_end _ _ _ h2, ← h6, List.append_assoc]
  · rw [if_neg hroom]
    obtain ⟨s1, s2, s3, s4⟩ := sync_delivers b os w done hw hi0
    have hne : ¬ ((x : Int) = EOF) := by unfold EOF; omega
    have hc : to_char (x : Int) = x := by
      have := to_char_to_int_type x hx
      rwa [to_int_type_of_lt x hx] at this
    unfold overflow
    simp only [s2, ne_eq, not_true_eq_false, if_false, to_int_type_of_lt x hx, hne, s1, setp, hc]
    refine ⟨trivial, rfl, (show (0 : Int) ≤ 0 + 1 by decide),
      (show (0 : Int) + 1 ≤ 1024 by decide), rfl, s3, ?_⟩
    show delivered (sync b os).os.trace ++ bytes_at (store_bytes b.writebuf_ 0 [x]) 0 (0 + 1)
      = done ++ [x]
    rw [s4, bytes_at_store_end _ _ _ le_rfl, bytes_at_nonpos _ _ _ le_rfl]
    rfl

/-- Putting a byte sequence keeps the invariant and adds the bytes in order. -/
theorem put_chars_inv (w : Nat → List Nat → write_result) (hw : accepts_some w) :
    ∀ (s : List Nat) (b : playerbuf) (os : OS) (done : List Nat),
      (∀ x ∈ s, x < 256) → put_inv b os w done →
      (put_chars s b os).res = Except.ok 0 ∧
      put_inv (put_chars s b os).buf (put_chars s b os).os w (done ++ s) := by
  intro s
  induction s with
  | nil =>
    intro b os done _ hi
    simp only [put_chars, List.append_nil]
    exact ⟨trivial, hi⟩
  | cons x xs ih =>
    intro b os done hs hi
    obtain ⟨r1, r2⟩ := sputc_inv b os w done x hw (hs x (List.mem_cons_self _ _)) hi
    have hne : ¬ ((x : Int) = EOF) := by unfold EOF; omega
    have e : put_chars (x :: xs) b os = put_chars xs (sputc b os x).buf (sputc b os x).os := by
      rw [put_chars]
      simp only [r1, hne, if_false]
    rw [e]
    have := ih (sputc b os x).buf (sputc b os x).os (done ++ [x])
      (fun y hy => hs y (List.mem_cons_of_mem _ hy)) r2
    simpa using this

/-- C4: write/flush round trip.  For every byte sequence `s` put one byte at a time into a
fresh playerbuf with a valid output descriptor and then flushed with `sync`, and every
`write` behaviour that accepts some positive number of the offered bytes at each call,
`sync` returns 0 (it is a total function, so it terminates), the bytes accepted by the
endpoint during the run are exactly `s` in order, and the put area is empty afterwards and
inside the buffer. -/
theorem write_flush_round_trip (input_fd output_fd : Int) (os : OS) (s : List Nat)
    (hfd : 0 ≤ output_fd) (hs : ∀ x ∈ s, x < 256) (hw : accepts_some os.write_script) :
    (put_then_sync s (new_playerbuf input_fd output_fd) os).res = Except.ok 0 ∧
    delivered (put_then_sync s (new_playerbuf input_fd output_fd) os).os.trace
      = delivered os.trace ++ s ∧
    (put_then_sync s (new_playerbuf input_fd output_fd) os).buf.pptr
      = (put_then_sync s (new_playerbuf input_fd output_fd) os).buf.pbase ∧
    put_area_ok (put_then_sync s (new_playerbuf input_fd output_fd) os).buf := by
  have h0 : put_inv (new_playerbuf input_fd output_fd) os os.write_script (delivered os.trace) := by
    refine ⟨rfl, le_rfl, (show (0 : Int) ≤ 1024 by decide), ?_, rfl, ?_⟩
    · show (if output_fd ≥ 0 then BUF_SIZE else 0) = BUF_SIZE
      rw [if_pos hfd]
    · show delivered os.trace ++ bytes_at _ 0 0 = delivered os.trace
      rw [bytes_at_nonpos _ _ _ le_rfl, List.append_nil]
  obtain ⟨p1, p2⟩ := put_chars_inv os.write_script hw s _ os _ hs h0
  obtain ⟨s1, s2, _, s4⟩ := sync_delivers _ _ os.write_script _ hw p2
  have hne : ¬ ((0 : Int) = EOF) := by decide
  have e : put_then_sync s (new_playerbuf input_fd output_fd) os
      = sync (put_chars s (new_playerbuf input_fd output_fd) os).buf
          (put_chars s (new_playerbuf input_fd output_fd) os).os := by
    unfold put_then_sync
    simp only [p1, hne, if_false]
  rw [e, s1]
  exact ⟨s2, s4, rfl, (show (0 : Int) ≤ 0 ∧ (0 : Int) ≤ 0 ∧ (0 : Int) ≤ 1024 ∧ (1024 : Int) ≤ 1024
    by decide)⟩

/-- The script that takes one byte per call accepts some bytes at each call. -/
theorem accepts_some_byte_by_byte : accepts_some byte_by_byte := by
  intro k bytes hne
  refine ⟨show (0 : Int) < 1 by decide, ?_⟩
  cases bytes with
  | nil => exact absurd rfl hne
  | cons x xs =>
    show (1 : Int) ≤ ((x :: xs).length : Int)
    simp only [List.length_cons]; push_cast; omega

/-- Witness of C4: the bytes 104, 105, 255 and an endpoint that takes one byte per call. -/
theorem write_flush_round_trip_witness :
    accepts_some byte_by_byte ∧
    (put_then_sync [104, 105, 255] (new_playerbuf 3 4)
      (fresh_OS ready_select (chunk_script []) byte_by_byte)).res = Except.ok 0 ∧
    delivered (put_then_sync [104, 105, 255] (new_playerbuf 3 4)
      (fresh_OS ready_select (chunk_script []) byte_by_byte)).os.trace = [104, 105, 255] :=
  ⟨accepts_some_byte_by_byte,
    (write_flush_round_trip 3 4 (fresh_OS ready_select (chunk_script []) byte_by_byte)
      [104, 105, 255] (by decide) (by decide) accepts_some_byte_by_byte).1,
    (write_flush_round_trip 3 4 (fresh_OS ready_select (chunk_script []) byte_by_byte)
      [104, 105, 255] (by decide) (by decide) accepts_some_byte_by_byte).2.1⟩

/-! ## Theorems: score accumulation and log file names -/

/-- The loop of `operator+=` from `i` for `k` rounds: the length is kept and exactly the
entries `i, ..., i + k - 1` get the other vector's entry added. -/
theorem add_assign_from_spec {T : Type} [Add T] (v2 : List T) : ∀ (k i : Nat) (v1 : List T),
    i + k ≤ v1.length → i + k ≤ v2.length →
    (add_assign_from v2 k i v1).length = v1.length ∧
    ∀ j (h1 : j < v1.length) (h2 : j < v2.length),
      (add_assign_from v2 k i v1)[j]? =
        some (if i ≤ j ∧ j < i + k then v1[j] + v2[j] else v1[j]) := by
  intro k
  induction k with
  | zero =>
    intro i v1 _ _
    refine ⟨rfl, ?_⟩
    intro j h1 h2
    have : ¬ (i ≤ j ∧ j < i + 0) := by omega
    rw [if_neg this]
    simp [add_assign_from, List.getElem?_eq_getElem h1]
  | succ k ih =>
    intro i v1 h1 h2
    have hi1 : i < v1.length := by omega
    have hi2 : i < v2.length := by omega
    unfold add_assign_from
    rw [List.getElem?_eq_getElem hi1, List.getElem?_eq_getElem hi2]
    simp only
    obtain ⟨hl, hg⟩ := ih (i + 1) (v1.set i (v1[i] + v2[i]))
      (by rw [List.length_set]; omega) (by omega)
    rw [List.length_set] at hl
    refine ⟨hl, ?_⟩
    intro j hj1 hj2
    rw [hg j (by rw [List.length_set]; exact hj1) hj2]
    congr 1
    by_cases hij : i = j
    · subst hij
      have c1 : ¬ (i + 1 ≤ i ∧ i < i + 1 + k) := by omega
      have c2 : i ≤ i ∧ i < i + (k + 1) := by omega
      simp [c1, c2]
    · have c : (i + 1 ≤ j ∧ j < i + 1 + k) ↔ (i ≤ j ∧ j < i + (k + 1)) := by omega
      simp only [c, List.getElem_set_ne hij]

/-- The template `operator+=` on vectors of the same length. -/
theorem vector_add_assign_spec {T : Type} [Add T] (v1 v2 : List T) (h : v1.length = v2.length) :
    (vector_add_assign v1 v2).length = v1.length ∧
    ∀ i (h1 : i < v1.length) (h2 : i < v2.length),
      (vector_add_assign v1 v2)[i]? = some (v1[i] + v2[i]) := by
  unfold vector_add_assign
  obtain ⟨hl, hg⟩ := add_assign_from_spec v2 (min v1.length v2.length) 0 v1
    (by simp) (by simp)
  refine ⟨hl, ?_⟩
  intro i h1 h2
  rw [hg i h1 h2]
  have : 0 ≤ i ∧ i < 0 + min v1.length v2.length := by
    rw [← h]; simp; exact h1
  rw [if_pos this]

/-- The accumulation loop of `main` after `n` matches. -/
theorem accumulate_spec {T : Type} [AddCommMonoid T] (scores : Nat → List T) : ∀ n : Nat,
    (∀ k, k < n → (scores k).length = NUM_PROGRAMS) →
    ((List.range n).foldl (fun acc i => vector_add_assign acc (scores i))
        (List.replicate NUM_PROGRAMS 0)).length = NUM_PROGRAMS ∧
    ∀ i, i < NUM_PROGRAMS →
      ((List.range n).foldl (fun acc i => vector_add_assign acc (scores i))
        (List.replicate NUM_PROGRAMS 0))[i]? =
        some (∑ k in Finset.range n, (scores k).getD i 0) := by
  intro n
  induction n with
  | zero =>
    intro _
    refine ⟨by simp, ?_⟩
    intro i hi
    simp [List.getElem?_replicate, hi]
  | succ n ih =>
    intro h
    obtain ⟨hl, hg⟩ := ih (fun k hk => h k (by omega))
    have hn := h n (by omega)
    rw [List.range_succ, List.foldl_append]
    simp only [List.foldl_cons, List.foldl_nil]
    obtain ⟨hl2, hg2⟩ := vector_add_assign_spec _ (scores n) (hl.trans hn.symm)
    refine ⟨hl2.trans hl, ?_⟩
    intro i hi
    have hi1 := hi
    rw [← hl] at hi1
    have hi2 := hi
    rw [← hn] at hi2
    rw [hg2 i hi1 hi2, Finset.sum_range_succ]
    have e1 := hg i hi
    rw [List.getElem?_eq_getElem hi1] at e1
    rw [Option.some.inj e1]
    congr 2
    simp [List.getD_eq_getElem?_getD, List.getElem?_eq_getElem hi2]

/-- C8: score accumulation is element-wise addition.  For all vectors `v1`, `v2` of the same
length, `v1 += v2` keeps the length of `v1` and sets every entry `i` to `v1[i] + v2[i]`;
and when each of the `reps = 10` match score vectors has `NUM_PROGRAMS` entries, the totals
of `main` have `NUM_PROGRAMS` entries and entry `i` is the sum of the entries `i` of the ten
vectors (over any commutative monoid, that is in exact arithmetic). -/
theorem score_accumulation {T : Type} [AddCommMonoid T] :
    (∀ v1 v2 : List T, v1.length = v2.length →
      (vector_add_assign v1 v2).length = v1.length ∧
      ∀ i (h1 : i < v1.length) (h2 : i < v2.length),
        (vector_add_assign v1 v2)[i]? = some (v1[i] + v2[i])) ∧
    (∀ scores : Nat → List T, (∀ k, k < reps → (scores k).length = NUM_PROGRAMS) →
      (main_match_scores scores).length = NUM_PROGRAMS ∧
      ∀ i, i < NUM_PROGRAMS →
        (main_match_scores scores)[i]? = some (∑ k in Finset.range reps, (scores k).getD i 0)) :=
  ⟨vector_add_assign_spec, fun scores h => accumulate_spec scores reps h⟩

/-- Witness of C8: `[1, 2] += [10, 20]` over the rationals, and ten matches that all score
`[1, 0]`. -/
theorem score_accumulation_witness :
    ([1, 2] : List ℚ).length = ([10, 20] : List ℚ).length ∧
    (vector_add_assign ([1, 2] : List ℚ) [10, 20]).length = 2 ∧
    (vector_add_assign ([1, 2] : List ℚ) [10, 20])[1]? = some (2 + 20) ∧
    (∀ k, k < reps → ((fun _ => [1, 0]) k : List ℚ).length = NUM_PROGRAMS) ∧
    (main_match_scores (fun _ => ([1, 0] : List ℚ))).length = NUM_PROGRAMS ∧
    (main_match_scores (fun _ => ([1, 0] : List ℚ)))[0]? =
      some (∑ k in Finset.range reps, ((fun _ => ([1, 0] : List ℚ)) k).getD 0 0) :=
  ⟨rfl, ((@score_accumulation ℚ _).1 [1, 2] [10, 20] rfl).1,
    ((@score_accumulation ℚ _).1 [1, 2] [10, 20] rfl).2 1 (by decide) (by decide),
    fun _ _ => rfl,
    ((@score_accumulation ℚ _).2 (fun _ => [1, 0]) (fun _ _ => rfl)).1,
    ((@score_accumulation ℚ _).2 (fun _ => [1, 0]) (fun _ _ => rfl)).2 0 (by decide)⟩

/-- A decimal digit is not a slash. -/
theorem digitChar_ne_slash (d : Nat) (h : d < 10) : Nat.digitChar d ≠ '/' := by
  interval_cases d <;> decide

/-- The digits of a number hold no slash. -/
theorem toDigitsCore_no_slash (fuel : Nat) : ∀ (n : Nat) (ds : List Char),
    '/' ∉ ds → '/' ∉ Nat.toDigitsCore 10 fuel n ds := by
  induction fuel with
  | zero => intro n ds h; simpa [Nat.toDigitsCore] using h
  | succ f ih =>
    intro n ds h
    have hd : '/' ∉ Nat.digitChar (n % 10) :: ds := by
      intro hm
      rcases List.mem_cons.mp hm with h1 | h1
      · exact digitChar_ne_slash (n % 10) (Nat.mod_lt _ (by decide)) h1.symm
      · exact h h1
    unfold Nat.toDigitsCore
    by_cases h0 : n / 10 = 0
    · simpa [h0] using hd
    · simp only [h0, if_false]
      exact ih _ _ hd

/-- The text of `ostream << int` holds no slash. -/
theorem decimal_no_slash (n : Int) : '/' ∉ decimal n := by
  unfold decimal
  have h : '/' ∉ Nat.toDigits 10 n.natAbs :=
    toDigitsCore_no_slash _ _ _ (List.not_mem_nil _)
  by_cases hn : n < 0
  · simp only [hn, if_true]
    intro hm
    rcases List.mem_cons.mp hm with h1 | h1
    · exact absurd h1 (by decide)
    · exact h h1
  · simpa [hn] using h

/-- When the backward scan finds nothing, the char is not among the scanned positions. -/
theorem rfind_below_none (s : List Char) (c : Char) : ∀ n, n ≤ s.length →
    rfind_below s c n = none → c ∉ s.take n := by
  intro n
  induction n with
  | zero => intro _ _; simp
  | succ k ih =>
    intro hk h
    unfold rfind_below at h
    by_cases hc : s[k]? = some c
    · simp [hc] at h
    · simp only [hc, if_false] at h
      have := ih (by omega) h
      have hlt : k < s.length := by omega
      rw [List.take_succ, List.getElem?_eq_getElem hlt]
      simp only [Option.toList, List.mem_append, List.mem_singleton, not_or]
      refine ⟨this, ?_⟩
      intro he
      apply hc
      rw [List.getElem?_eq_getElem hlt, he]

/-- When the backward scan stops at `pos`, the char is there and at no later scanned
position. -/
theorem rfind_below_some (s : List Char) (c : Char) : ∀ n, n ≤ s.length → ∀ pos,
    rfind_below s c n = some pos →
    pos < n ∧ s[pos]? = some c ∧ c ∉ (s.take n).drop (pos + 1) := by
  intro n
  induction n with
  | zero => intro _ pos h; simp [rfind_below] at h
  | succ k ih =>
    intro hk pos h
    unfold rfind_below at h
    by_cases hc : s[k]? = some c
    · simp only [hc, if_true, Option.some.injEq] at h
      subst h
      refine ⟨by omega, hc, ?_⟩
      have : ((s.take (k + 1)).drop (k + 1)) = [] := by
        apply List.drop_eq_nil_of_le
        simp
      rw [this]; simp
    · simp only [hc, if_false] at h
      obtain ⟨h1, h2, h3⟩ := ih (by omega) pos h
      refine ⟨by omega, h2, ?_⟩
      have hlt : k < s.length := by omega
      rw [List.take_succ, List.getElem?_eq_getElem hlt]
      simp only [Option.toList]
      rw [List.drop_append_of_le_length (by simp; omega)]
      simp only [List.mem_append, List.mem_singleton, not_or]
      refine ⟨h3, ?_⟩
      intro he
      apply hc
      rw [List.getElem?_eq_getElem hlt, he]

/-- The function `get_filename` returns the longest suffix without a slash. -/
theorem get_filename_spec (p : List Char) :
    get_filename p <:+ p ∧ '/' ∉ get_filename p ∧
    (∀ t : List Char, t <:+ p → '/' ∉ t → t <:+ get_filename p) ∧
    ('/' ∉ p → get_filename p = p) := by
  unfold get_filename find_last_of
  cases h : rfind_below p '/' p.length with
  | none =>
    have hn := rfind_below_none p '/' p.length le_rfl h
    rw [List.take_length] at hn
    simp only [List.drop_zero]
    exact ⟨List.suffix_refl p, hn, fun t ht _ => ht, fun _ => trivial⟩
  | some pos =>
    obtain ⟨h1, h2, h3⟩ := rfind_below_some p '/' p.length le_rfl pos h
    rw [List.take_length] at h3
    simp only
    refine ⟨List.drop_suffix _ _, h3, ?_, ?_⟩
    · rintro t ⟨a, rfl⟩ ht
      by_cases hle : pos + 1 ≤ a.length
      · rw [List.drop_append_of_le_length hle]
        exact List.suffix_append _ _
      · exfalso
        apply ht
        have hp : (a ++ t)[pos]? = t[pos - a.length]? := by
          rw [List.getElem?_append_right (by omega)]
        rw [hp] at h2
        exact List.getElem?_mem h2
    · intro hp
      exfalso
      exact hp (List.getElem?_mem h2)

/-- C9: log file naming.  For every match id `b`, player index `i` and program path `p`,
`get_battle_stderr_path(b, i, p)` is "logs/" + decimal(b) + "/" + decimal(i) + "." + base
+ ".err" with base = `get_filename(p)`; base is a suffix of `p` without '/', every suffix
of `p` without '/' is a suffix of base, and base is `p` when `p` has no '/'; the file name
part has no '/', and the path is `get_battle_folder_path(b)` followed by that file name. -/
theorem log_file_naming (b i : Int) (p : List Char) :
    get_battle_stderr_path b i p =
      ['l', 'o', 'g', 's', '/'] ++ decimal b ++ ['/'] ++ decimal i ++ ['.'] ++ get_filename p
        ++ ['.', 'e', 'r', 'r'] ∧
    get_filename p <:+ p ∧ '/' ∉ get_filename p ∧
    (∀ t : List Char, t <:+ p → '/' ∉ t → t <:+ get_filename p) ∧
    ('/' ∉ p → get_filename p = p) ∧
    '/' ∉ decimal i ++ ['.'] ++ get_filename p ++ ['.', 'e', 'r', 'r'] ∧
    get_battle_stderr_path b i p =
      get_battle_folder_path b ++ (decimal i ++ ['.'] ++ get_filename p ++ ['.', 'e', 'r', 'r']) := by
  obtain ⟨h1, h2, h3, h4⟩ := get_filename_spec p
  refine ⟨?_, h1, h2, h3, h4, ?_, ?_⟩
  · simp [get_battle_stderr_path, get_battle_folder_path, LOG_FOLDER]
  · have hd := decimal_no_slash i
    simp only [List.mem_append, not_or]
    refine ⟨⟨⟨hd, by decide⟩, h2⟩, by decide⟩
  · simp [get_battle_stderr_path]


end BotJudge
